import Mathlib

/-!
Shallow embedding of `src/nowymem.py` (the meme-kiosk rotation queue and its
tick-based scheduler).

Conventions used throughout:
* A `pathlib.Path` value is modelled by its string form (`MPath := String`);
  `str(p)` is then the identity.
* The Python dict `MultimediaQueue._media` is modelled as an insertion-ordered
  association list: assignment to an existing key keeps its position,
  assignment to a fresh key appends at the end, `del` removes the entry.
* The `collections.deque` `_media_queue` is stored with its RIGHT end (the end
  `pop()` removes from and `append` adds to) as the HEAD of the Lean list;
  `appendleft` therefore appends at the TAIL of the Lean list.
* Code that can raise an uncaught exception (`KeyError` from
  `self._media[path]` on a missing key, `AttributeError` from calling a
  method on `None`, `ValueError` from `MemeStatus(...)` on a bad value) is
  modelled in the `Option` monad, with `none` meaning the exception.
* The filesystem is a parameter `fs : MPath → Bool` giving `Path.is_file`.
-/

abbrev MPath := String

/-- `class MemeStatus(Enum)` from the source. -/
inductive MemeStatus where
  | NEW
  | NORMAL
  | PENDING
  | RETRACTED
deriving DecidableEq

/-- The `.name` attribute of the enum member (equal to its value here). -/
def MemeStatus.name : MemeStatus → String
  | .NEW => "NEW"
  | .NORMAL => "NORMAL"
  | .PENDING => "PENDING"
  | .RETRACTED => "RETRACTED"

/-- The enum constructor `MemeStatus(value)`; raises `ValueError` (here
`none`) on a string that is not one of the four values. -/
def MemeStatus.ofValue (s : String) : Option MemeStatus :=
  if s = "NEW" then some .NEW
  else if s = "NORMAL" then some .NORMAL
  else if s = "PENDING" then some .PENDING
  else if s = "RETRACTED" then some .RETRACTED
  else none

/-- The frozen dataclass `Multimedia` (and its trivial subclasses `Meme`,
`Commercial`). -/
structure Meme where
  path : MPath
  status : MemeStatus
  description : String
deriving DecidableEq

/-- `MultimediaQueue.BAD_STATUSES`. -/
def badStatuses : List MemeStatus := [MemeStatus.PENDING, MemeStatus.RETRACTED]

/-- The mutable state of a `MultimediaQueue` instance.  `memeInfo` is the
status map loaded from the save file in `__init__` (empty when the file was
absent, matching the `FileNotFoundError` branch). -/
structure MultimediaQueue where
  media : List (MPath × Meme)
  mediaQueue : List MPath
  displayedMedia : List Meme
  memeInfo : List (String × String)
deriving DecidableEq

/-- `MultimediaQueue.__init__` with the given content of the save file
(`[]` when the file does not exist). -/
def initQueue (info : List (String × String)) : MultimediaQueue :=
  { media := [], mediaQueue := [], displayedMedia := [], memeInfo := info }

/-- Reading `self._media[p]` / `p in self._media.keys()`: first-match lookup
in the insertion-ordered dict. -/
def lookupMedia (p : MPath) : List (MPath × Meme) → Option Meme
  | [] => none
  | (k, m) :: rest => if k = p then some m else lookupMedia p rest

/-- `dict.get` on the loaded status map. -/
def lookupInfo (key : String) : List (String × String) → Option String
  | [] => none
  | (k, v) :: rest => if k = key then some v else lookupInfo key rest

/-- Dict assignment `self._media[p] = m`: replace the value at an existing
key in place, or append a fresh key at the end. -/
def setMedia (p : MPath) (m : Meme) : List (MPath × Meme) → List (MPath × Meme)
  | [] => [(p, m)]
  | (k, old) :: rest => if k = p then (k, m) :: rest else (k, old) :: setMedia p m rest

/-- `del self._media[p]` (only ever executed right after a successful
lookup of `p`). -/
def deleteMedia (p : MPath) : List (MPath × Meme) → List (MPath × Meme)
  | [] => []
  | (k, m) :: rest => if k = p then rest else (k, m) :: deleteMedia p rest

/-- `MultimediaQueue.add_media(meme_path, is_init)`.  `none` models the
`ValueError` that `MemeStatus(...)` raises on a corrupt persisted value. -/
def addMedia (memePath : MPath) (isInit : Bool) (q : MultimediaQueue) :
    Option MultimediaQueue :=
  if (lookupMedia memePath q.media).isSome then some q
  else
    let statusOpt :=
      if isInit then MemeStatus.ofValue ((lookupInfo memePath q.memeInfo).getD "NORMAL")
      else some MemeStatus.NEW
    match statusOpt with
    | none => none
    | some st =>
      some { q with
        media := q.media ++ [(memePath, Meme.mk memePath st "")],
        mediaQueue := memePath :: q.mediaQueue }

/-- `MultimediaQueue.dump_bad_media` (despite the name it dumps the status of
every item): the JSON object written to the save file, as a key/value list
keyed by `str(meme.path)`. -/
def dumpBadMedia (q : MultimediaQueue) : List (String × String) :=
  q.media.map (fun pm => (pm.2.path, pm.2.status.name))

/-- `MultimediaQueue._change_status`; `none` models the `KeyError` raised by
`self._media[meme_path]` when the path is not registered. -/
def changeStatus (p : MPath) (st : MemeStatus) (q : MultimediaQueue) :
    Option MultimediaQueue :=
  match lookupMedia p q.media with
  | none => none
  | some m => some { q with media := setMedia p (Meme.mk m.path st "") q.media }

/-- `MultimediaQueue.block_media`. -/
def blockMedia (p : MPath) (q : MultimediaQueue) : Option MultimediaQueue :=
  changeStatus p MemeStatus.PENDING q

/-- The `while True` loop of `next_media`: pop from the deque until the queue
empties (`(media, none)`) or an eligible item is found
(`(media, some (poppedPath, item, remainingQueue))`).  The outer `none` is
the `KeyError` raised when a queued path is missing from the dict. -/
def nextMediaLoop (fs : MPath → Bool) :
    List MPath → List (MPath × Meme) →
    Option (List (MPath × Meme) × Option (MPath × Meme × List MPath))
  | [], media => some (media, none)
  | p :: rest, media =>
    match lookupMedia p media with
    | none => none
    | some m =>
      if m.status ∈ badStatuses then nextMediaLoop fs rest media
      else if fs p = false then nextMediaLoop fs rest (deleteMedia p media)
      else some (media, some (p, m, rest))

/-- `MultimediaQueue.next_media`.  On success the returned `Option Meme` is
`None` (queue exhausted) or the winning item `meme` as it stood BEFORE
`_change_status`; the state records the status change, the history append
and the `appendleft` re-insertion. -/
def nextMedia (fs : MPath → Bool) (q : MultimediaQueue) :
    Option (Option Meme × MultimediaQueue) :=
  match nextMediaLoop fs q.mediaQueue q.media with
  | none => none
  | some (media', none) => some (none, { q with media := media', mediaQueue := [] })
  | some (media', some (p, m, rest)) =>
    some (some m,
      { q with
        media := setMedia p (Meme.mk m.path MemeStatus.NORMAL "") media',
        mediaQueue := rest ++ [m.path],
        displayedMedia := q.displayedMedia ++ [m] })

/-- The `media` property: `list(self._media.values())`. -/
def mediaList (q : MultimediaQueue) : List Meme :=
  q.media.map Prod.snd

/-- From `MemeDisplay.display_meme`: the new-item jingle is played exactly
when the displayed item's status is `NEW`. -/
def playsNewJingle (m : Meme) : Bool :=
  m.status == MemeStatus.NEW

/-- One display call made by the scheduler: `display_meme` (whose argument
must not be `None`, since `meme.path` would raise) or `display_commercial`
(which tolerates `None`). -/
inductive DisplayEvent where
  | displayMeme (m : Meme)
  | displayCommercial (m : Option Meme)
deriving DecidableEq

/-- The fields of `MemeWatcher` relevant to scheduling.  `commercialQueue`
is `none` exactly when no commercial directory was configured, matching
`__init__`. -/
structure MemeWatcher where
  memeQueue : MultimediaQueue
  commercialQueue : Option MultimediaQueue
  ensureCommercial : Bool
  commercialRate : Nat
deriving DecidableEq

/-- `MemeWatcher.__init__` (the scheduling-relevant part): both queues start
from their save files, the on-demand flag starts clear, and the commercial
queue exists iff a commercial directory was given. -/
def mkMemeWatcher (commercialConfigured : Bool) (rate : Nat)
    (memeInfo commercialInfo : List (String × String)) : MemeWatcher :=
  { memeQueue := initQueue memeInfo,
    commercialQueue := if commercialConfigured then some (initQueue commercialInfo) else none,
    ensureCommercial := false,
    commercialRate := rate }

/-- The loop state of `watch_memes`: the watcher object plus the local
variable `meme_cnt`. -/
structure LoopState where
  watcher : MemeWatcher
  memeCnt : Nat
deriving DecidableEq

/-- A directory rescan: `for p in dir.iterdir(): queue.add_media(p, ...)`. -/
def scanAll (isInit : Bool) : List MPath → MultimediaQueue → Option MultimediaQueue
  | [], q => some q
  | p :: rest, q =>
    match addMedia p isInit q with
    | none => none
    | some q' => scanAll isInit rest q'

/-- Lines 159-165 of `watch_memes`: `meme_cnt = 1` and the two initial
scans.  `commDir = none` models `_commercial_directory` being `None`, on
which `None.iterdir()` raises `AttributeError`. -/
def watchInit (memeDir : List MPath) (commDir : Option (List MPath))
    (w : MemeWatcher) : Option LoopState :=
  match scanAll true memeDir w.memeQueue with
  | none => none
  | some mq =>
    match commDir with
    | none => none
    | some cdl =>
      match w.commercialQueue with
      | none => none
      | some cq0 =>
        match scanAll true cdl cq0 with
        | none => none
        | some cq => some ⟨{ w with memeQueue := mq, commercialQueue := some cq }, 1⟩

/-- One iteration of the `while True` loop of `watch_memes` (lines 166-181):
rescan both directories, then the periodic-commercial `if`, then the
on-demand `if/else`, then `meme_cnt += 1`.  Returns the display calls made
this tick, in order, and the successor state; `none` is an uncaught
exception (in particular `None.iterdir()` when no commercial directory is
configured, and `display_meme(None)` when the meme queue is exhausted). -/
def tick (memeDir : List MPath) (commDir : Option (List MPath)) (fs : MPath → Bool)
    (s : LoopState) : Option (List DisplayEvent × LoopState) :=
  match scanAll false memeDir s.watcher.memeQueue with
  | none => none
  | some mq =>
    match commDir with
    | none => none
    | some cdl =>
      match s.watcher.commercialQueue with
      | none => none
      | some cq0 =>
        match scanAll false cdl cq0 with
        | none => none
        | some cq =>
          match (if commDir.isSome && (s.memeCnt % s.watcher.commercialRate == 0)
                 then (nextMedia fs cq).map
                   (fun rc => ([DisplayEvent.displayCommercial rc.1], rc.2))
                 else some ([], cq)) with
          | none => none
          | some (evs1, cq1) =>
            if s.watcher.ensureCommercial then
              match nextMedia fs cq1 with
              | none => none
              | some (r2, cq2) =>
                some (evs1 ++ [DisplayEvent.displayCommercial r2],
                  { watcher := { s.watcher with
                      memeQueue := mq,
                      commercialQueue := some cq2,
                      ensureCommercial := false },
                    memeCnt := 0 + 1 })
            else
              match nextMedia fs mq with
              | none => none
              | some (rm, mq1) =>
                match rm with
                | none => none
                | some m =>
                  some (evs1 ++ [DisplayEvent.displayMeme m],
                    { watcher := { s.watcher with
                        memeQueue := mq1,
                        commercialQueue := some cq1 },
                      memeCnt := s.memeCnt + 1 })

/-- Run `n` consecutive ticks, collecting each tick's display calls. -/
def runTicks (memeDir : List MPath) (commDir : Option (List MPath))
    (fs : MPath → Bool) : Nat → LoopState → Option (List (List DisplayEvent) × LoopState)
  | 0, s => some ([], s)
  | n + 1, s =>
    match tick memeDir commDir fs s with
    | none => none
    | some (evs, s') =>
      match runTicks memeDir commDir fs n s' with
      | none => none
      | some (rest, sf) => some (evs :: rest, sf)

/-- Run a sequence of `next_media` calls (one per filesystem snapshot),
collecting the returned items; `none` if any call raises. -/
def runNext : List (MPath → Bool) → MultimediaQueue →
    Option (List (Option Meme) × MultimediaQueue)
  | [], q => some ([], q)
  | fs :: rest, q =>
    match nextMedia fs q with
    | none => none
    | some (r, q') =>
      match runNext rest q' with
      | none => none
      | some (rs, qf) => some (r :: rs, qf)

/-- Well-formedness of the registry dict that Python guarantees by
construction: the stored item's `path` field equals its dict key. -/
def WfPaths (media : List (MPath × Meme)) : Prop :=
  ∀ pm ∈ media, (Prod.snd pm).path = Prod.fst pm

instance (media : List (MPath × Meme)) : Decidable (WfPaths media) :=
  List.decidableBAll _ media

/-! ### Basic lemmas about the registry dict model -/

theorem lookupMedia_mem {p : MPath} {m : Meme} :
    ∀ {l : List (MPath × Meme)}, lookupMedia p l = some m → (p, m) ∈ l := by
  intro l
  induction l with
  | nil => intro h; simp [lookupMedia] at h
  | cons hd tl ih =>
    intro h
    obtain ⟨k, v⟩ := hd
    simp only [lookupMedia] at h
    by_cases hk : k = p
    · simp [hk] at h
      subst hk
      subst h
      exact List.mem_cons_self _ _
    · simp [hk] at h
      exact List.mem_cons_of_mem _ (ih h)

theorem lookupMedia_mem_keys {p : MPath} {m : Meme} {l : List (MPath × Meme)}
    (h : lookupMedia p l = some m) : p ∈ l.map Prod.fst := by
  have := lookupMedia_mem h
  exact List.mem_map.2 ⟨(p, m), this, rfl⟩

theorem lookupMedia_eq_none_of_not_mem {p : MPath} :
    ∀ {l : List (MPath × Meme)}, p ∉ l.map Prod.fst → lookupMedia p l = none := by
  intro l
  induction l with
  | nil => intro _; rfl
  | cons hd tl ih =>
    intro h
    obtain ⟨k, v⟩ := hd
    simp only [List.map_cons, List.mem_cons] at h
    push_neg at h
    simp only [lookupMedia]
    rw [if_neg (fun hk => h.1 hk.symm)]
    exact ih h.2

theorem lookupMedia_eq_none_iff {p : MPath} {l : List (MPath × Meme)} :
    lookupMedia p l = none ↔ p ∉ l.map Prod.fst := by
  constructor
  · intro h hmem
    induction l with
    | nil => simp at hmem
    | cons hd tl ih =>
      obtain ⟨k, v⟩ := hd
      simp only [lookupMedia] at h
      by_cases hk : k = p
      · simp [hk] at h
      · rw [if_neg hk] at h
        simp only [List.map_cons, List.mem_cons] at hmem
        rcases hmem with h1 | h1
        · exact hk h1.symm
        · exact ih h h1
  · exact lookupMedia_eq_none_of_not_mem

theorem lookupMedia_setMedia_self {p : MPath} {v : Meme} :
    ∀ {l : List (MPath × Meme)}, lookupMedia p (setMedia p v l) = some v := by
  intro l
  induction l with
  | nil => simp [setMedia, lookupMedia]
  | cons hd tl ih =>
    obtain ⟨k, old⟩ := hd
    simp only [setMedia]
    by_cases hk : k = p
    · simp [hk, lookupMedia]
    · simp [hk, lookupMedia, ih]

theorem lookupMedia_setMedia_ne {p x : MPath} {v : Meme} (hne : p ≠ x) :
    ∀ {l : List (MPath × Meme)}, lookupMedia p (setMedia x v l) = lookupMedia p l := by
  intro l
  induction l with
  | nil =>
    simp only [setMedia, lookupMedia]
    rw [if_neg (fun hh => hne hh.symm)]
  | cons hd tl ih =>
    obtain ⟨k, old⟩ := hd
    simp only [setMedia]
    by_cases hk : k = x
    · subst hk
      have hkp : ¬ k = p := fun hh => hne hh.symm
      simp only [lookupMedia]
      rw [if_neg hkp, if_neg hkp]
    · simp only [if_neg hk, lookupMedia]
      by_cases hp : k = p
      · simp [hp]
      · simp [hp, ih]

theorem lookupMedia_deleteMedia_ne {p x : MPath} (hne : p ≠ x) :
    ∀ {l : List (MPath × Meme)}, lookupMedia p (deleteMedia x l) = lookupMedia p l := by
  intro l
  induction l with
  | nil => rfl
  | cons hd tl ih =>
    obtain ⟨k, m⟩ := hd
    simp only [deleteMedia]
    by_cases hk : k = x
    · subst hk
      have hkp : ¬ k = p := fun hh => hne hh.symm
      simp [lookupMedia, hkp]
    · simp only [if_neg hk, lookupMedia]
      by_cases hp : k = p
      · simp [hp]
      · simp [hp, ih]

theorem keys_setMedia_of_lookup {x : MPath} {v m0 : Meme} :
    ∀ {l : List (MPath × Meme)}, lookupMedia x l = some m0 →
      (setMedia x v l).map Prod.fst = l.map Prod.fst := by
  intro l
  induction l with
  | nil => intro h; simp [lookupMedia] at h
  | cons hd tl ih =>
    intro h
    obtain ⟨k, old⟩ := hd
    simp only [lookupMedia] at h
    simp only [setMedia]
    by_cases hk : k = x
    · simp [hk]
    · simp only [if_neg hk, List.map_cons]
      rw [if_neg hk] at h
      rw [ih h]

theorem mem_keys_deleteMedia {x p : MPath} :
    ∀ {l : List (MPath × Meme)}, p ∈ (deleteMedia x l).map Prod.fst →
      p ∈ l.map Prod.fst := by
  intro l
  induction l with
  | nil => intro h; simp [deleteMedia] at h
  | cons hd tl ih =>
    intro h
    obtain ⟨k, m⟩ := hd
    simp only [deleteMedia] at h
    by_cases hk : k = x
    · rw [if_pos hk] at h
      exact List.mem_cons_of_mem _ h
    · rw [if_neg hk] at h
      simp only [List.map_cons, List.mem_cons] at h ⊢
      rcases h with h | h
      · exact Or.inl h
      · exact Or.inr (ih h)

theorem WfPaths_setMedia {x : MPath} {v : Meme} {l : List (MPath × Meme)}
    (hw : WfPaths l) (hv : v.path = x) : WfPaths (setMedia x v l) := by
  induction l with
  | nil => intro pm hpm; simp [setMedia] at hpm; simp [hpm, hv]
  | cons hd tl ih =>
    obtain ⟨k, old⟩ := hd
    have hw1 : old.path = k := hw (k, old) (List.mem_cons_self _ _)
    have hwtl : WfPaths tl := fun pm hpm => hw pm (List.mem_cons_of_mem _ hpm)
    simp only [setMedia]
    by_cases hk : k = x
    · rw [if_pos hk]
      intro pm hpm
      rcases List.mem_cons.1 hpm with h | h
      · subst h; simpa [hv] using hk.symm
      · exact hwtl pm h
    · rw [if_neg hk]
      intro pm hpm
      rcases List.mem_cons.1 hpm with h | h
      · subst h; exact hw1
      · exact ih hwtl pm h

theorem WfPaths_deleteMedia {x : MPath} {l : List (MPath × Meme)}
    (hw : WfPaths l) : WfPaths (deleteMedia x l) := by
  induction l with
  | nil => intro pm hpm; simp [deleteMedia] at hpm
  | cons hd tl ih =>
    obtain ⟨k, old⟩ := hd
    have hw1 : old.path = k := hw (k, old) (List.mem_cons_self _ _)
    have hwtl : WfPaths tl := fun pm hpm => hw pm (List.mem_cons_of_mem _ hpm)
    simp only [deleteMedia]
    by_cases hk : k = x
    · rw [if_pos hk]; exact hwtl
    · rw [if_neg hk]
      intro pm hpm
      rcases List.mem_cons.1 hpm with h | h
      · subst h; exact hw1
      · exact ih hwtl pm h

theorem WfPaths_of_lookup {p : MPath} {m : Meme} {l : List (MPath × Meme)}
    (hw : WfPaths l) (h : lookupMedia p l = some m) : m.path = p :=
  hw (p, m) (lookupMedia_mem h)

theorem mem_keys_deleteMedia_of_ne {x y : MPath} (hne : x ≠ y) :
    ∀ {l : List (MPath × Meme)}, x ∈ l.map Prod.fst →
      x ∈ (deleteMedia y l).map Prod.fst := by
  intro l
  induction l with
  | nil => intro h; simp at h
  | cons hd tl ih =>
    intro h
    obtain ⟨k, m⟩ := hd
    simp only [List.map_cons, List.mem_cons] at h
    simp only [deleteMedia]
    by_cases hk : k = y
    · rw [if_pos hk]
      rcases h with h | h
      · exact absurd (h ▸ hk) hne
      · exact h
    · rw [if_neg hk]
      simp only [List.map_cons, List.mem_cons]
      rcases h with h | h
      · exact Or.inl h
      · exact Or.inr (ih h)

theorem keysNodup_deleteMedia {y : MPath} :
    ∀ {l : List (MPath × Meme)}, (l.map Prod.fst).Nodup →
      ((deleteMedia y l).map Prod.fst).Nodup := by
  intro l
  induction l with
  | nil => intro _; simp [deleteMedia]
  | cons hd tl ih =>
    intro h
    obtain ⟨k, m⟩ := hd
    simp only [List.map_cons, List.nodup_cons] at h
    simp only [deleteMedia]
    by_cases hk : k = y
    · rw [if_pos hk]; exact h.2
    · rw [if_neg hk]
      simp only [List.map_cons, List.nodup_cons]
      exact ⟨fun hmem => h.1 (mem_keys_deleteMedia (x := y) (p := k) hmem), ih h.2⟩

theorem lookupMedia_deleteMedia_self {x : MPath} :
    ∀ {l : List (MPath × Meme)}, (l.map Prod.fst).Nodup →
      lookupMedia x (deleteMedia x l) = none := by
  intro l
  induction l with
  | nil => intro _; rfl
  | cons hd tl ih =>
    intro h
    obtain ⟨k, m⟩ := hd
    simp only [List.map_cons, List.nodup_cons] at h
    simp only [deleteMedia]
    by_cases hk : k = x
    · rw [if_pos hk]
      subst hk
      exact lookupMedia_eq_none_of_not_mem h.1
    · rw [if_neg hk]
      simp only [lookupMedia, if_neg hk]
      exact ih h.2

/-! ### Lemmas about the `next_media` traversal loop -/

theorem nextMediaLoop_all_bad {fs : MPath → Bool} :
    ∀ {queue : List MPath} {media : List (MPath × Meme)},
      (∀ p ∈ queue, ∃ m, lookupMedia p media = some m ∧ m.status ∈ badStatuses) →
      nextMediaLoop fs queue media = some (media, none) := by
  intro queue
  induction queue with
  | nil => intro media _; rfl
  | cons y rest ih =>
    intro media h
    obtain ⟨my, hmy, hbad⟩ := h y (List.mem_cons_self _ _)
    simp only [nextMediaLoop, hmy]
    rw [if_pos hbad]
    exact ih (fun p hp => h p (List.mem_cons_of_mem _ hp))

theorem nextMediaLoop_win {fs : MPath → Bool} :
    ∀ {queue : List MPath} {media media' : List (MPath × Meme)}
      {p : MPath} {m : Meme} {rest : List MPath},
      nextMediaLoop fs queue media = some (media', some (p, m, rest)) →
      lookupMedia p media' = some m ∧ m.status ∉ badStatuses ∧ fs p = true ∧
        ∃ pre, queue = pre ++ p :: rest := by
  intro queue
  induction queue with
  | nil =>
    intro media media' p m rest h
    simp [nextMediaLoop] at h
  | cons y tail ih =>
    intro media media' p m rest h
    simp only [nextMediaLoop] at h
    cases hl : lookupMedia y media with
    | none => rw [hl] at h; exact absurd h (by simp)
    | some my =>
      rw [hl] at h
      dsimp only at h
      by_cases hbad : my.status ∈ badStatuses
      · rw [if_pos hbad] at h
        obtain ⟨h1, h2, h3, pre, hpre⟩ := ih h
        exact ⟨h1, h2, h3, y :: pre, by simp [hpre]⟩
      · rw [if_neg hbad] at h
        by_cases hfs : fs y = false
        · rw [if_pos hfs] at h
          obtain ⟨h1, h2, h3, pre, hpre⟩ := ih h
          exact ⟨h1, h2, h3, y :: pre, by simp [hpre]⟩
        · rw [if_neg hfs] at h
          simp only [Option.some_inj, Prod.mk.injEq] at h
          obtain ⟨hmedia, hy, hm, hrest⟩ := h
          subst hmedia
          subst hy
          subst hm
          subst hrest
          refine ⟨hl, hbad, ?_, [], rfl⟩
          cases hq : fs y with
          | false => exact absurd hq hfs
          | true => rfl

theorem nextMediaLoop_wf {fs : MPath → Bool} :
    ∀ {queue : List MPath} {media media' : List (MPath × Meme)}
      {w : Option (MPath × Meme × List MPath)},
      WfPaths media → nextMediaLoop fs queue media = some (media', w) →
      WfPaths media' := by
  intro queue
  induction queue with
  | nil =>
    intro media media' w hw h
    simp only [nextMediaLoop, Option.some_inj, Prod.mk.injEq] at h
    exact h.1 ▸ hw
  | cons y tail ih =>
    intro media media' w hw h
    simp only [nextMediaLoop] at h
    cases hl : lookupMedia y media with
    | none => rw [hl] at h; exact absurd h (by simp)
    | some my =>
      rw [hl] at h
      dsimp only at h
      by_cases hbad : my.status ∈ badStatuses
      · rw [if_pos hbad] at h
        exact ih hw h
      · rw [if_neg hbad] at h
        by_cases hfs : fs y = false
        · rw [if_pos hfs] at h
          exact ih (WfPaths_deleteMedia hw) h
        · rw [if_neg hfs] at h
          simp only [Option.some_inj, Prod.mk.injEq] at h
          exact h.1 ▸ hw

theorem nextMediaLoop_keys_subset {fs : MPath → Bool} :
    ∀ {queue : List MPath} {media media' : List (MPath × Meme)}
      {w : Option (MPath × Meme × List MPath)},
      nextMediaLoop fs queue media = some (media', w) →
      ∀ x, x ∈ media'.map Prod.fst → x ∈ media.map Prod.fst := by
  intro queue
  induction queue with
  | nil =>
    intro media media' w h x hx
    simp only [nextMediaLoop, Option.some_inj, Prod.mk.injEq] at h
    exact h.1 ▸ hx
  | cons y tail ih =>
    intro media media' w h x hx
    simp only [nextMediaLoop] at h
    cases hl : lookupMedia y media with
    | none => rw [hl] at h; exact absurd h (by simp)
    | some my =>
      rw [hl] at h
      dsimp only at h
      by_cases hbad : my.status ∈ badStatuses
      · rw [if_pos hbad] at h
        exact ih h x hx
      · rw [if_neg hbad] at h
        by_cases hfs : fs y = false
        · rw [if_pos hfs] at h
          exact mem_keys_deleteMedia (ih h x hx)
        · rw [if_neg hfs] at h
          simp only [Option.some_inj, Prod.mk.injEq] at h
          exact h.1 ▸ hx

theorem nextMediaLoop_lookup_none_mono {fs : MPath → Bool}
    {queue : List MPath} {media media' : List (MPath × Meme)}
    {w : Option (MPath × Meme × List MPath)} {x : MPath}
    (h : nextMediaLoop fs queue media = some (media', w))
    (hx : lookupMedia x media = none) : lookupMedia x media' = none := by
  rw [lookupMedia_eq_none_iff] at hx ⊢
  exact fun hmem => hx (nextMediaLoop_keys_subset h x hmem)

theorem nextMediaLoop_keysNodup {fs : MPath → Bool} :
    ∀ {queue : List MPath} {media media' : List (MPath × Meme)}
      {w : Option (MPath × Meme × List MPath)},
      (media.map Prod.fst).Nodup →
      nextMediaLoop fs queue media = some (media', w) →
      (media'.map Prod.fst).Nodup := by
  intro queue
  induction queue with
  | nil =>
    intro media media' w hnd h
    simp only [nextMediaLoop, Option.some_inj, Prod.mk.injEq] at h
    exact h.1 ▸ hnd
  | cons y tail ih =>
    intro media media' w hnd h
    simp only [nextMediaLoop] at h
    cases hl : lookupMedia y media with
    | none => rw [hl] at h; exact absurd h (by simp)
    | some my =>
      rw [hl] at h
      dsimp only at h
      by_cases hbad : my.status ∈ badStatuses
      · rw [if_pos hbad] at h
        exact ih hnd h
      · rw [if_neg hbad] at h
        by_cases hfs : fs y = false
        · rw [if_pos hfs] at h
          exact ih (keysNodup_deleteMedia hnd) h
        · rw [if_neg hfs] at h
          simp only [Option.some_inj, Prod.mk.injEq] at h
          exact h.1 ▸ hnd

theorem nextMediaLoop_lookup_orig {fs : MPath → Bool} :
    ∀ {queue : List MPath} {media media' : List (MPath × Meme)}
      {p : MPath} {m : Meme} {rest : List MPath},
      queue.Nodup →
      nextMediaLoop fs queue media = some (media', some (p, m, rest)) →
      lookupMedia p media = some m := by
  intro queue
  induction queue with
  | nil =>
    intro media media' p m rest _ h
    simp [nextMediaLoop] at h
  | cons y tail ih =>
    intro media media' p m rest hnd h
    have hytail : y ∉ tail := (List.nodup_cons.1 hnd).1
    have hndt : tail.Nodup := (List.nodup_cons.1 hnd).2
    simp only [nextMediaLoop] at h
    cases hl : lookupMedia y media with
    | none => rw [hl] at h; exact absurd h (by simp)
    | some my =>
      rw [hl] at h
      dsimp only at h
      by_cases hbad : my.status ∈ badStatuses
      · rw [if_pos hbad] at h
        exact ih hndt h
      · rw [if_neg hbad] at h
        by_cases hfs : fs y = false
        · rw [if_pos hfs] at h
          have hrec := ih hndt h
          obtain ⟨-, -, -, pre, hpre⟩ := nextMediaLoop_win h
          have hp_tail : p ∈ tail := hpre ▸ List.mem_append_right pre (List.mem_cons_self _ _)
          have hpy : p ≠ y := fun hc => hytail (hc ▸ hp_tail)
          rw [lookupMedia_deleteMedia_ne hpy] at hrec
          exact hrec
        · rw [if_neg hfs] at h
          simp only [Option.some_inj, Prod.mk.injEq] at h
          obtain ⟨-, hy, hm, -⟩ := h
          rw [hy] at hl
          rw [hm] at hl
          exact hl

theorem nextMediaLoop_preserves_bad {fs : MPath → Bool} {pb : MPath} {mb : Meme}
    (hbadb : mb.status ∈ badStatuses) :
    ∀ {queue : List MPath} {media media' : List (MPath × Meme)}
      {w : Option (MPath × Meme × List MPath)},
      lookupMedia pb media = some mb →
      nextMediaLoop fs queue media = some (media', w) →
      lookupMedia pb media' = some mb ∧
        (∀ p m rest, w = some (p, m, rest) → p ≠ pb) := by
  intro queue
  induction queue with
  | nil =>
    intro media media' w hb h
    simp only [nextMediaLoop, Option.some_inj, Prod.mk.injEq] at h
    exact ⟨h.1 ▸ hb, fun p m rest hw => absurd (h.2 ▸ hw) (by simp)⟩
  | cons y tail ih =>
    intro media media' w hb h
    simp only [nextMediaLoop] at h
    cases hl : lookupMedia y media with
    | none => rw [hl] at h; exact absurd h (by simp)
    | some my =>
      rw [hl] at h
      dsimp only at h
      by_cases hbad : my.status ∈ badStatuses
      · rw [if_pos hbad] at h
        exact ih hb h
      · rw [if_neg hbad] at h
        have hypb : y ≠ pb := by
          intro hc
          rw [hc] at hl
          rw [hl] at hb
          exact hbad (Option.some_inj.1 hb ▸ hbadb)
        by_cases hfs : fs y = false
        · rw [if_pos hfs] at h
          have hb' : lookupMedia pb (deleteMedia y media) = some mb := by
            rw [lookupMedia_deleteMedia_ne (fun hc => hypb hc.symm)]
            exact hb
          exact ih hb' h
        · rw [if_neg hfs] at h
          simp only [Option.some_inj, Prod.mk.injEq] at h
          refine ⟨h.1 ▸ hb, fun p m rest hw => ?_⟩
          have := h.2
          rw [hw] at this
          simp only [Option.some_inj, Prod.mk.injEq] at this
          exact this.1 ▸ hypb

theorem nextMediaLoop_removed {fs : MPath → Bool} :
    ∀ {queue : List MPath} {media media' : List (MPath × Meme)}
      {w : Option (MPath × Meme × List MPath)},
      nextMediaLoop fs queue media = some (media', w) →
      ∀ x, x ∈ media.map Prod.fst → x ∉ media'.map Prod.fst →
        fs x = false ∧ x ∈ queue := by
  intro queue
  induction queue with
  | nil =>
    intro media media' w h x hx hx'
    simp only [nextMediaLoop, Option.some_inj, Prod.mk.injEq] at h
    exact absurd (h.1 ▸ hx) hx'
  | cons y tail ih =>
    intro media media' w h x hx hx'
    simp only [nextMediaLoop] at h
    cases hl : lookupMedia y media with
    | none => rw [hl] at h; exact absurd h (by simp)
    | some my =>
      rw [hl] at h
      dsimp only at h
      by_cases hbad : my.status ∈ badStatuses
      · rw [if_pos hbad] at h
        obtain ⟨h1, h2⟩ := ih h x hx hx'
        exact ⟨h1, List.mem_cons_of_mem _ h2⟩
      · rw [if_neg hbad] at h
        by_cases hfs : fs y = false
        · rw [if_pos hfs] at h
          by_cases hxy : x = y
          · exact ⟨hxy ▸ hfs, hxy ▸ List.mem_cons_self _ _⟩
          · have hxdel : x ∈ (deleteMedia y media).map Prod.fst :=
              mem_keys_deleteMedia_of_ne hxy hx
            obtain ⟨h1, h2⟩ := ih h x hxdel hx'
            exact ⟨h1, List.mem_cons_of_mem _ h2⟩
        · rw [if_neg hfs] at h
          simp only [Option.some_inj, Prod.mk.injEq] at h
          exact absurd (h.1 ▸ hx) hx'

theorem nextMediaLoop_all_files {fs : MPath → Bool} :
    ∀ {queue : List MPath} {media media' : List (MPath × Meme)}
      {w : Option (MPath × Meme × List MPath)},
      (∀ p ∈ queue, fs p = true) →
      nextMediaLoop fs queue media = some (media', w) →
      media' = media := by
  intro queue
  induction queue with
  | nil =>
    intro media media' w _ h
    simp only [nextMediaLoop, Option.some_inj, Prod.mk.injEq] at h
    exact h.1.symm
  | cons y tail ih =>
    intro media media' w hall h
    simp only [nextMediaLoop] at h
    cases hl : lookupMedia y media with
    | none => rw [hl] at h; exact absurd h (by simp)
    | some my =>
      rw [hl] at h
      dsimp only at h
      by_cases hbad : my.status ∈ badStatuses
      · rw [if_pos hbad] at h
        exact ih (fun p hp => hall p (List.mem_cons_of_mem _ hp)) h
      · rw [if_neg hbad] at h
        have hfsy : ¬ fs y = false := by
          rw [hall y (List.mem_cons_self _ _)]
          simp
        rw [if_neg hfsy] at h
        simp only [Option.some_inj, Prod.mk.injEq] at h
        exact h.1.symm

theorem nextMediaLoop_none_deletes {fs : MPath → Bool} :
    ∀ {queue : List MPath} {media media' : List (MPath × Meme)},
      (media.map Prod.fst).Nodup →
      nextMediaLoop fs queue media = some (media', none) →
      ∀ x mx, x ∈ queue → lookupMedia x media = some mx →
        mx.status ∉ badStatuses → fs x = false →
        lookupMedia x media' = none := by
  intro queue
  induction queue with
  | nil =>
    intro media media' _ _ x mx hx
    simp at hx
  | cons y tail ih =>
    intro media media' hnd h x mx hx hlx hgood hmiss
    simp only [nextMediaLoop] at h
    cases hl : lookupMedia y media with
    | none => rw [hl] at h; exact absurd h (by simp)
    | some my =>
      rw [hl] at h
      dsimp only at h
      by_cases hbad : my.status ∈ badStatuses
      · rw [if_pos hbad] at h
        have hxy : x ≠ y := by
          intro hc
          rw [hc] at hlx
          rw [hl] at hlx
          exact hgood (Option.some_inj.1 hlx ▸ hbad)
        have hxtail : x ∈ tail := by
          rcases List.mem_cons.1 hx with hc | hc
          · exact absurd hc hxy
          · exact hc
        exact ih hnd h x mx hxtail hlx hgood hmiss
      · rw [if_neg hbad] at h
        by_cases hfs : fs y = false
        · rw [if_pos hfs] at h
          by_cases hxy : x = y
          · subst hxy
            exact nextMediaLoop_lookup_none_mono h (lookupMedia_deleteMedia_self hnd)
          · have hxtail : x ∈ tail := by
              rcases List.mem_cons.1 hx with hc | hc
              · exact absurd hc hxy
              · exact hc
            have hlx' : lookupMedia x (deleteMedia y media) = some mx := by
              rw [lookupMedia_deleteMedia_ne hxy]
              exact hlx
            exact ih (keysNodup_deleteMedia hnd) h x mx hxtail hlx' hgood hmiss
        · rw [if_neg hfs] at h
          simp only [Option.some_inj, Prod.mk.injEq] at h
          exact absurd h.2 (by simp)

/-! ### Lemmas about `next_media` at the queue level -/

theorem nextMedia_success_none {fs : MPath → Bool} {q q' : MultimediaQueue}
    {media' : List (MPath × Meme)}
    (hloop : nextMediaLoop fs q.mediaQueue q.media = some (media', none))
    (h : nextMedia fs q = some (none, q')) :
    q' = { q with media := media', mediaQueue := [] } := by
  rw [nextMedia, hloop] at h
  simp only [Option.some_inj, Prod.mk.injEq] at h
  exact h.2.symm

theorem nextMedia_shape {fs : MPath → Bool} {q q' : MultimediaQueue} {X : Meme}
    (h : nextMedia fs q = some (some X, q')) :
    ∃ media' p rest,
      nextMediaLoop fs q.mediaQueue q.media = some (media', some (p, X, rest)) ∧
      q' = { q with
        media := setMedia p (Meme.mk X.path MemeStatus.NORMAL "") media',
        mediaQueue := rest ++ [X.path],
        displayedMedia := q.displayedMedia ++ [X] } := by
  rw [nextMedia] at h
  cases hloop : nextMediaLoop fs q.mediaQueue q.media with
  | none => rw [hloop] at h; exact absurd h (by simp)
  | some res =>
    obtain ⟨media', w⟩ := res
    rw [hloop] at h
    cases w with
    | none => simp at h
    | some win =>
      obtain ⟨p, m, rest⟩ := win
      simp only [Option.some_inj, Prod.mk.injEq] at h
      obtain ⟨hm, hq'⟩ := h
      subst hm
      exact ⟨media', p, rest, rfl, hq'.symm⟩

theorem nextMedia_preserves_bad {fs : MPath → Bool} {q q' : MultimediaQueue}
    {r : Option Meme} {pb : MPath} {mb : Meme}
    (hwf : WfPaths q.media)
    (hbadb : mb.status ∈ badStatuses)
    (hlb : lookupMedia pb q.media = some mb)
    (h : nextMedia fs q = some (r, q')) :
    WfPaths q'.media ∧ lookupMedia pb q'.media = some mb ∧
      (∀ X, r = some X → X.path ≠ pb) := by
  rw [nextMedia] at h
  cases hloop : nextMediaLoop fs q.mediaQueue q.media with
  | none => rw [hloop] at h; exact absurd h (by simp)
  | some res =>
    obtain ⟨media', w⟩ := res
    rw [hloop] at h
    have hwf' : WfPaths media' := nextMediaLoop_wf hwf hloop
    obtain ⟨hkeep, hwin⟩ := nextMediaLoop_preserves_bad hbadb hlb hloop
    cases w with
    | none =>
      simp only [Option.some_inj, Prod.mk.injEq] at h
      obtain ⟨hr, hq'⟩ := h
      subst hq'
      exact ⟨hwf', hkeep, fun X hX => absurd (hr ▸ hX) (by simp)⟩
    | some win =>
      obtain ⟨p, m, rest⟩ := win
      simp only [Option.some_inj, Prod.mk.injEq] at h
      obtain ⟨hr, hq'⟩ := h
      subst hq'
      have hppb : p ≠ pb := hwin p m rest rfl
      have hmp : m.path = p :=
        WfPaths_of_lookup hwf' (nextMediaLoop_win hloop).1
      refine ⟨?_, ?_, ?_⟩
      · exact WfPaths_setMedia hwf' hmp
      · rw [lookupMedia_setMedia_ne (fun hc => hppb hc.symm)]
        exact hkeep
      · intro X hX
        rw [hX] at hr
        rw [← Option.some_inj.1 hr, hmp]
        exact hppb

theorem runNext_preserves_bad {pb : MPath} {mb : Meme}
    (hbadb : mb.status ∈ badStatuses) :
    ∀ {fss : List (MPath → Bool)} {q q2 : MultimediaQueue} {rs : List (Option Meme)},
      WfPaths q.media → lookupMedia pb q.media = some mb →
      runNext fss q = some (rs, q2) →
      WfPaths q2.media ∧ lookupMedia pb q2.media = some mb ∧
        (∀ r ∈ rs, ∀ X, r = some X → X.path ≠ pb) := by
  intro fss
  induction fss with
  | nil =>
    intro q q2 rs hwf hlb h
    simp only [runNext, Option.some_inj, Prod.mk.injEq] at h
    refine ⟨h.2 ▸ hwf, h.2 ▸ hlb, fun r hr => ?_⟩
    rw [h.1.symm] at hr
    simp at hr
  | cons fs rest ih =>
    intro q q2 rs hwf hlb h
    simp only [runNext] at h
    cases hstep : nextMedia fs q with
    | none => rw [hstep] at h; exact absurd h (by simp)
    | some rq =>
      obtain ⟨r, q'⟩ := rq
      rw [hstep] at h
      dsimp only at h
      obtain ⟨hwf', hlb', hr⟩ := nextMedia_preserves_bad hwf hbadb hlb hstep
      cases hrec : runNext rest q' with
      | none => rw [hrec] at h; exact absurd h (by simp)
      | some rsq =>
        obtain ⟨rs', qf⟩ := rsq
        rw [hrec] at h
        simp only [Option.some_inj, Prod.mk.injEq] at h
        obtain ⟨hwf2, hlb2, hrs'⟩ := ih hwf' hlb' hrec
        refine ⟨h.2 ▸ hwf2, h.2 ▸ hlb2, fun r0 hr0 X hX => ?_⟩
        rw [h.1.symm] at hr0
        rcases List.mem_cons.1 hr0 with hc | hc
        · exact hr X (hc ▸ hX)
        · exact hrs' r0 hc X hX

/-! ### Claim C4 -/

/-- C4 counterexample: blocking a path that was never registered is not a
silent no-op — `_change_status` evaluates `self._media[meme_path]`, which
raises `KeyError` (modelled as `none`) on the empty registry. -/
theorem C4_block_unregistered_cex :
    blockMedia "a" (initQueue []) = none := by
  rfl

/-- C4 (amended): for every path `p` that is not registered in the Rotation
Queue, `Block(p)` raises a `KeyError` (an error result, mutating nothing)
rather than silently succeeding. -/
theorem C4_block_unregistered_raises (p : MPath) (q : MultimediaQueue)
    (h : lookupMedia p q.media = none) :
    blockMedia p q = none := by
  rw [blockMedia, changeStatus, h]

/-- Witness for C4: the amended theorem applied at a concrete unregistered
path. -/
theorem C4_block_unregistered_raises_witness :
    lookupMedia "a" (initQueue []).media = none ∧
      blockMedia "a" (initQueue []) = none :=
  ⟨rfl, C4_block_unregistered_raises "a" (initQueue []) rfl⟩

/-! ### Claim C5 -/

/-- C5: on a queue whose traversal order is empty or holds only bad-status
items, `next_media` returns the explicit no-item result without raising, and
the registry (in particular every bad-status item and its status) is left
completely unchanged; only the traversal order is emptied. -/
theorem C5_next_empty_or_all_bad (fs : MPath → Bool) (q : MultimediaQueue)
    (h : ∀ p ∈ q.mediaQueue, ∃ m, lookupMedia p q.media = some m ∧
      m.status ∈ badStatuses) :
    nextMedia fs q = some (none, { q with mediaQueue := [] }) := by
  rw [nextMedia, nextMediaLoop_all_bad h]

/-- Witness for C5: a queue holding one `PENDING` item. -/
theorem C5_next_empty_or_all_bad_witness :
    (∀ p ∈ (MultimediaQueue.mk [("a", Meme.mk "a" MemeStatus.PENDING "")] ["a"] [] []).mediaQueue,
      ∃ m, lookupMedia p (MultimediaQueue.mk [("a", Meme.mk "a" MemeStatus.PENDING "")] ["a"] [] []).media = some m ∧
        m.status ∈ badStatuses) ∧
    nextMedia (fun _ => true)
        (MultimediaQueue.mk [("a", Meme.mk "a" MemeStatus.PENDING "")] ["a"] [] []) =
      some (none, MultimediaQueue.mk [("a", Meme.mk "a" MemeStatus.PENDING "")] [] [] []) := by
  refine ⟨?_, ?_⟩
  · intro p hp
    simp only [List.mem_singleton] at hp
    subst hp
    exact ⟨Meme.mk "a" MemeStatus.PENDING "", rfl, by decide⟩
  · exact C5_next_empty_or_all_bad (fun _ => true)
      (MultimediaQueue.mk [("a", Meme.mk "a" MemeStatus.PENDING "")] ["a"] [] [])
      (fun p hp => by
        simp only [List.mem_singleton] at hp
        subst hp
        exact ⟨Meme.mk "a" MemeStatus.PENDING "", rfl, by decide⟩)

/-! ### Claim C6 -/

/-- C6: whenever `next_media` returns an item `X`, afterwards the registry
holds `X`'s path with status `NORMAL`, `X` is the newest entry of the
history log, and `X`'s path sits at the far end of the traversal order, so
it comes up again only after every other item still queued at that moment
has been traversed once. -/
theorem C6_next_success_rotation (fs : MPath → Bool) (q q' : MultimediaQueue)
    (X : Meme) (hwf : WfPaths q.media) (hnd : q.mediaQueue.Nodup)
    (h : nextMedia fs q = some (some X, q')) :
    lookupMedia X.path q'.media = some (Meme.mk X.path MemeStatus.NORMAL "") ∧
    q'.displayedMedia.getLast? = some X ∧
    ∃ rest, q'.mediaQueue = rest ++ [X.path] ∧ X.path ∉ rest ∧
      ∀ x ∈ rest, x ∈ q.mediaQueue := by
  obtain ⟨media', p, rest, hloop, hq'⟩ := nextMedia_shape h
  obtain ⟨hlook, hgood, hfile, pre, hpre⟩ := nextMediaLoop_win hloop
  have hwf' : WfPaths media' := nextMediaLoop_wf hwf hloop
  have hXp : X.path = p := WfPaths_of_lookup hwf' hlook
  subst hq'
  refine ⟨?_, ?_, rest, rfl, ?_, ?_⟩
  · rw [hXp]
    exact lookupMedia_setMedia_self
  · exact List.getLast?_concat _
  · rw [hXp]
    have : (pre ++ p :: rest).Nodup := hpre ▸ hnd
    have hcons : (p :: rest).Nodup := this.of_append_right
    exact (List.nodup_cons.1 hcons).1
  · intro x hx
    rw [hpre]
    exact List.mem_append_right pre (List.mem_cons_of_mem _ hx)

/-- Witness for C6: a two-item queue, first item eligible. -/
theorem C6_next_success_rotation_witness :
    WfPaths (MultimediaQueue.mk
        [("a", Meme.mk "a" MemeStatus.NORMAL ""), ("b", Meme.mk "b" MemeStatus.NORMAL "")]
        ["a", "b"] [] []).media ∧
    (MultimediaQueue.mk
        [("a", Meme.mk "a" MemeStatus.NORMAL ""), ("b", Meme.mk "b" MemeStatus.NORMAL "")]
        ["a", "b"] [] []).mediaQueue.Nodup ∧
    (lookupMedia "a" (MultimediaQueue.mk
        [("a", Meme.mk "a" MemeStatus.NORMAL ""), ("b", Meme.mk "b" MemeStatus.NORMAL "")]
        ["b", "a"] [Meme.mk "a" MemeStatus.NORMAL ""] []).media =
      some (Meme.mk "a" MemeStatus.NORMAL "") ∧
    (MultimediaQueue.mk
        [("a", Meme.mk "a" MemeStatus.NORMAL ""), ("b", Meme.mk "b" MemeStatus.NORMAL "")]
        ["b", "a"] [Meme.mk "a" MemeStatus.NORMAL ""] []).displayedMedia.getLast? =
      some (Meme.mk "a" MemeStatus.NORMAL "") ∧
    ∃ rest, (MultimediaQueue.mk
        [("a", Meme.mk "a" MemeStatus.NORMAL ""), ("b", Meme.mk "b" MemeStatus.NORMAL "")]
        ["b", "a"] [Meme.mk "a" MemeStatus.NORMAL ""] []).mediaQueue = rest ++ ["a"] ∧
      "a" ∉ rest ∧ ∀ x ∈ rest, x ∈ ["a", "b"]) := by
  refine ⟨by decide, by decide, ?_⟩
  have h := C6_next_success_rotation (fun _ => true)
    (MultimediaQueue.mk
      [("a", Meme.mk "a" MemeStatus.NORMAL ""), ("b", Meme.mk "b" MemeStatus.NORMAL "")]
      ["a", "b"] [] [])
    (MultimediaQueue.mk
      [("a", Meme.mk "a" MemeStatus.NORMAL ""), ("b", Meme.mk "b" MemeStatus.NORMAL "")]
      ["b", "a"] [Meme.mk "a" MemeStatus.NORMAL ""] [])
    (Meme.mk "a" MemeStatus.NORMAL "") (by decide) (by decide) rfl
  exact h

/-! ### Claim C10 -/

/-- C10: the item returned by `next_media` (also the one appended to
history) carries the status it had in the registry BEFORE the call; only the
registry's copy is replaced by a `NORMAL`-status one.  The display layer's
new-item jingle fires exactly when the returned (pre-call) status is
`NEW`. -/
theorem C10_returned_precall_status (fs : MPath → Bool) (q q' : MultimediaQueue)
    (X : Meme) (hwf : WfPaths q.media) (hnd : q.mediaQueue.Nodup)
    (h : nextMedia fs q = some (some X, q')) :
    lookupMedia X.path q.media = some X ∧
    q'.displayedMedia = q.displayedMedia ++ [X] ∧
    lookupMedia X.path q'.media = some (Meme.mk X.path MemeStatus.NORMAL "") ∧
    (playsNewJingle X = true ↔ X.status = MemeStatus.NEW) := by
  obtain ⟨media', p, rest, hloop, hq'⟩ := nextMedia_shape h
  have horig : lookupMedia p q.media = some X := nextMediaLoop_lookup_orig hnd hloop
  have hXp : X.path = p := WfPaths_of_lookup hwf horig
  subst hq'
  refine ⟨?_, rfl, ?_, ?_⟩
  · rw [hXp]
    exact horig
  · rw [hXp]
    exact lookupMedia_setMedia_self
  · simp [playsNewJingle]

/-- Witness for C10: the item's first display returns its `NEW` status (so
the jingle plays) while the registry copy becomes `NORMAL`. -/
theorem C10_returned_precall_status_witness :
    WfPaths (MultimediaQueue.mk [("a", Meme.mk "a" MemeStatus.NEW "")] ["a"] [] []).media ∧
    (MultimediaQueue.mk [("a", Meme.mk "a" MemeStatus.NEW "")] ["a"] [] []).mediaQueue.Nodup ∧
    (lookupMedia "a" (MultimediaQueue.mk [("a", Meme.mk "a" MemeStatus.NEW "")] ["a"] [] []).media =
      some (Meme.mk "a" MemeStatus.NEW "") ∧
    (MultimediaQueue.mk [("a", Meme.mk "a" MemeStatus.NORMAL "")] ["a"]
        [Meme.mk "a" MemeStatus.NEW ""] []).displayedMedia =
      [] ++ [Meme.mk "a" MemeStatus.NEW ""] ∧
    lookupMedia "a" (MultimediaQueue.mk [("a", Meme.mk "a" MemeStatus.NORMAL "")] ["a"]
        [Meme.mk "a" MemeStatus.NEW ""] []).media =
      some (Meme.mk "a" MemeStatus.NORMAL "") ∧
    (playsNewJingle (Meme.mk "a" MemeStatus.NEW "") = true ↔
      (Meme.mk "a" MemeStatus.NEW "").status = MemeStatus.NEW)) := by
  refine ⟨by decide, by decide, ?_⟩
  have h := C10_returned_precall_status (fun _ => true)
    (MultimediaQueue.mk [("a", Meme.mk "a" MemeStatus.NEW "")] ["a"] [] [])
    (MultimediaQueue.mk [("a", Meme.mk "a" MemeStatus.NORMAL "")] ["a"]
      [Meme.mk "a" MemeStatus.NEW ""] [])
    (Meme.mk "a" MemeStatus.NEW "") (by decide) (by decide) rfl
  exact h

/-! ### Claim C7 -/

/-- C7: once a registered path `p` is blocked, no later `next_media` call in
the same run ever returns an item with path `p` (under any sequence of
filesystem states), yet `p` stays enumerable in the full registry
listing. -/
theorem C7_blocked_stays_hidden (p : MPath) (q q1 q2 : MultimediaQueue)
    (m : Meme) (fss : List (MPath → Bool)) (rs : List (Option Meme))
    (hwf : WfPaths q.media)
    (hreg : lookupMedia p q.media = some m)
    (hb : blockMedia p q = some q1)
    (hrun : runNext fss q1 = some (rs, q2)) :
    (∀ r ∈ rs, ∀ X, r = some X → X.path ≠ p) ∧
    ∃ Y ∈ mediaList q2, Y.path = p := by
  have hmp : m.path = p := WfPaths_of_lookup hwf hreg
  rw [blockMedia, changeStatus, hreg] at hb
  dsimp only at hb
  have hq1 : q1 = { q with media := setMedia p (Meme.mk m.path MemeStatus.PENDING "") q.media } :=
    (Option.some_inj.1 hb).symm
  have hwf1 : WfPaths q1.media := by
    rw [hq1]
    exact WfPaths_setMedia hwf hmp
  have hlb1 : lookupMedia p q1.media = some (Meme.mk m.path MemeStatus.PENDING "") := by
    rw [hq1]
    exact lookupMedia_setMedia_self
  have hbadb : (Meme.mk m.path MemeStatus.PENDING "").status ∈ badStatuses := by
    show MemeStatus.PENDING ∈ badStatuses
    decide
  obtain ⟨hwf2, hlb2, hrs⟩ := runNext_preserves_bad hbadb hwf1 hlb1 hrun
  refine ⟨hrs, Meme.mk m.path MemeStatus.PENDING "", ?_, hmp⟩
  exact List.mem_map.2 ⟨(p, Meme.mk m.path MemeStatus.PENDING ""), lookupMedia_mem hlb2, rfl⟩

/-- Witness for C7: block the only item, then one `next_media` call — it
returns the no-item result, and the blocked path is still listed. -/
theorem C7_blocked_stays_hidden_witness :
    WfPaths (MultimediaQueue.mk [("a", Meme.mk "a" MemeStatus.NORMAL "")] ["a"] [] []).media ∧
    lookupMedia "a" (MultimediaQueue.mk [("a", Meme.mk "a" MemeStatus.NORMAL "")] ["a"] [] []).media =
      some (Meme.mk "a" MemeStatus.NORMAL "") ∧
    blockMedia "a" (MultimediaQueue.mk [("a", Meme.mk "a" MemeStatus.NORMAL "")] ["a"] [] []) =
      some (MultimediaQueue.mk [("a", Meme.mk "a" MemeStatus.PENDING "")] ["a"] [] []) ∧
    runNext [fun _ => true] (MultimediaQueue.mk [("a", Meme.mk "a" MemeStatus.PENDING "")] ["a"] [] []) =
      some ([none], MultimediaQueue.mk [("a", Meme.mk "a" MemeStatus.PENDING "")] [] [] []) ∧
    ((∀ r ∈ [(none : Option Meme)], ∀ X, r = some X → X.path ≠ "a") ∧
      ∃ Y ∈ mediaList (MultimediaQueue.mk [("a", Meme.mk "a" MemeStatus.PENDING "")] [] [] []),
        Y.path = "a") := by
  refine ⟨by decide, rfl, rfl, rfl, ?_⟩
  exact C7_blocked_stays_hidden "a"
    (MultimediaQueue.mk [("a", Meme.mk "a" MemeStatus.NORMAL "")] ["a"] [] [])
    (MultimediaQueue.mk [("a", Meme.mk "a" MemeStatus.PENDING "")] ["a"] [] [])
    (MultimediaQueue.mk [("a", Meme.mk "a" MemeStatus.PENDING "")] [] [] [])
    (Meme.mk "a" MemeStatus.NORMAL "") [fun _ => true] [none]
    (by decide) rfl rfl rfl

/-! ### Claim C8 -/

/-- C8: an item leaves the registry only when traversal reaches it in
`next_media` while its backing file is missing, and this is silent (the call
still succeeds): (1) a successful `block_media` never changes the key set;
(2) `add_media` never removes a key; (3) any key removed by a successful
`next_media` had a missing backing file and was in the traversal order;
(4) when every queued file exists, `next_media` leaves the key set
unchanged; (5) conversely, on a full traversal (no item returned) every
queued good-status item whose file is missing IS deleted from the
registry. -/
theorem C8_registry_deletion_policy :
    (∀ p (q q' : MultimediaQueue), blockMedia p q = some q' →
      q'.media.map Prod.fst = q.media.map Prod.fst) ∧
    (∀ p b (q q' : MultimediaQueue), addMedia p b q = some q' →
      ∀ x ∈ q.media.map Prod.fst, x ∈ q'.media.map Prod.fst) ∧
    (∀ (fs : MPath → Bool) (q : MultimediaQueue) r q',
      nextMedia fs q = some (r, q') →
      ∀ x, x ∈ q.media.map Prod.fst → x ∉ q'.media.map Prod.fst →
        fs x = false ∧ x ∈ q.mediaQueue) ∧
    (∀ (fs : MPath → Bool) (q : MultimediaQueue) r q',
      (∀ p ∈ q.mediaQueue, fs p = true) →
      nextMedia fs q = some (r, q') →
      q'.media.map Prod.fst = q.media.map Prod.fst) ∧
    (∀ (fs : MPath → Bool) (q q' : MultimediaQueue),
      (q.media.map Prod.fst).Nodup →
      nextMedia fs q = some (none, q') →
      ∀ x mx, x ∈ q.mediaQueue → lookupMedia x q.media = some mx →
        mx.status ∉ badStatuses → fs x = false →
        lookupMedia x q'.media = none) := by
  refine ⟨?_, ?_, ?_, ?_, ?_⟩
  · intro p q q' hb
    rw [blockMedia, changeStatus] at hb
    cases hl : lookupMedia p q.media with
    | none => rw [hl] at hb; exact absurd hb (by simp)
    | some m =>
      rw [hl] at hb
      dsimp only at hb
      rw [← Option.some_inj.1 hb]
      exact keys_setMedia_of_lookup hl
  · intro p b q q' ha x hx
    rw [addMedia] at ha
    by_cases hs : (lookupMedia p q.media).isSome
    · rw [if_pos hs] at ha
      rw [← Option.some_inj.1 ha]
      exact hx
    · rw [if_neg hs] at ha
      dsimp only at ha
      cases hst : (if b = true then MemeStatus.ofValue ((lookupInfo p q.memeInfo).getD "NORMAL")
          else some MemeStatus.NEW) with
      | none => rw [hst] at ha; exact absurd ha (by simp)
      | some st =>
        rw [hst] at ha
        dsimp only at ha
        rw [← Option.some_inj.1 ha]
        simp only [List.map_append, List.map_cons]
        exact List.mem_append_left _ hx
  · intro fs q r q' h x hx hx'
    rw [nextMedia] at h
    cases hloop : nextMediaLoop fs q.mediaQueue q.media with
    | none => rw [hloop] at h; exact absurd h (by simp)
    | some res =>
      obtain ⟨media', w⟩ := res
      rw [hloop] at h
      cases w with
      | none =>
        simp only [Option.some_inj, Prod.mk.injEq] at h
        have hm : q'.media = media' := by rw [← h.2]
        rw [hm] at hx'
        exact nextMediaLoop_removed hloop x hx hx'
      | some win =>
        obtain ⟨p, m, rest⟩ := win
        simp only [Option.some_inj, Prod.mk.injEq] at h
        have hm : q'.media = setMedia p (Meme.mk m.path MemeStatus.NORMAL "") media' := by
          rw [← h.2]
        rw [hm, keys_setMedia_of_lookup (nextMediaLoop_win hloop).1] at hx'
        exact nextMediaLoop_removed hloop x hx hx'
  · intro fs q r q' hall h
    rw [nextMedia] at h
    cases hloop : nextMediaLoop fs q.mediaQueue q.media with
    | none => rw [hloop] at h; exact absurd h (by simp)
    | some res =>
      obtain ⟨media', w⟩ := res
      rw [hloop] at h
      have hmedia : media' = q.media := nextMediaLoop_all_files hall hloop
      cases w with
      | none =>
        simp only [Option.some_inj, Prod.mk.injEq] at h
        rw [← h.2, hmedia]
      | some win =>
        obtain ⟨p, m, rest⟩ := win
        simp only [Option.some_inj, Prod.mk.injEq] at h
        rw [← h.2]
        rw [keys_setMedia_of_lookup (nextMediaLoop_win hloop).1, hmedia]
  · intro fs q q' hnd h x mx hxq hlx hgood hmiss
    rw [nextMedia] at h
    cases hloop : nextMediaLoop fs q.mediaQueue q.media with
    | none => rw [hloop] at h; exact absurd h (by simp)
    | some res =>
      obtain ⟨media', w⟩ := res
      rw [hloop] at h
      cases w with
      | none =>
        simp only [Option.some_inj, Prod.mk.injEq] at h
        have hm : q'.media = media' := by rw [← h.2]
        rw [hm]
        exact nextMediaLoop_none_deletes hnd hloop x mx hxq hlx hgood hmiss
      | some win =>
        obtain ⟨p, m, rest⟩ := win
        simp only [Option.some_inj, Prod.mk.injEq] at h
        exact absurd h.1 (by simp)

/-- Witness for C8: each conjunct applied at a concrete input (a one-item
registry; for the deletion parts the backing file is missing). -/
theorem C8_registry_deletion_policy_witness :
    (MultimediaQueue.mk [("a", Meme.mk "a" MemeStatus.PENDING "")] ["a"] [] []).media.map Prod.fst =
      (MultimediaQueue.mk [("a", Meme.mk "a" MemeStatus.NORMAL "")] ["a"] [] []).media.map Prod.fst ∧
    (∀ x ∈ (MultimediaQueue.mk [("a", Meme.mk "a" MemeStatus.NORMAL "")] ["a"] [] []).media.map Prod.fst,
      x ∈ (MultimediaQueue.mk [("a", Meme.mk "a" MemeStatus.NORMAL ""), ("b", Meme.mk "b" MemeStatus.NEW "")]
        ["b", "a"] [] []).media.map Prod.fst) ∧
    ((fun _ => false : MPath → Bool) "a" = false ∧
      "a" ∈ (MultimediaQueue.mk [("a", Meme.mk "a" MemeStatus.NORMAL "")] ["a"] [] []).mediaQueue) ∧
    (MultimediaQueue.mk [("a", Meme.mk "a" MemeStatus.NORMAL "")] ["a"]
        [Meme.mk "a" MemeStatus.NORMAL ""] []).media.map Prod.fst =
      (MultimediaQueue.mk [("a", Meme.mk "a" MemeStatus.NORMAL "")] ["a"] [] []).media.map Prod.fst ∧
    lookupMedia "a" (MultimediaQueue.mk ([] : List (MPath × Meme)) [] [] []).media = none := by
  refine ⟨?_, ?_, ?_, ?_, ?_⟩
  · exact C8_registry_deletion_policy.1 "a"
      (MultimediaQueue.mk [("a", Meme.mk "a" MemeStatus.NORMAL "")] ["a"] [] [])
      (MultimediaQueue.mk [("a", Meme.mk "a" MemeStatus.PENDING "")] ["a"] [] []) rfl
  · exact C8_registry_deletion_policy.2.1 "b" false
      (MultimediaQueue.mk [("a", Meme.mk "a" MemeStatus.NORMAL "")] ["a"] [] [])
      (MultimediaQueue.mk [("a", Meme.mk "a" MemeStatus.NORMAL ""), ("b", Meme.mk "b" MemeStatus.NEW "")]
        ["b", "a"] [] []) rfl
  · exact C8_registry_deletion_policy.2.2.1 (fun _ => false)
      (MultimediaQueue.mk [("a", Meme.mk "a" MemeStatus.NORMAL "")] ["a"] [] [])
      none (MultimediaQueue.mk ([] : List (MPath × Meme)) [] [] []) rfl
      "a" (by decide) (by decide)
  · exact C8_registry_deletion_policy.2.2.2.1 (fun _ => true)
      (MultimediaQueue.mk [("a", Meme.mk "a" MemeStatus.NORMAL "")] ["a"] [] [])
      (some (Meme.mk "a" MemeStatus.NORMAL ""))
      (MultimediaQueue.mk [("a", Meme.mk "a" MemeStatus.NORMAL "")] ["a"]
        [Meme.mk "a" MemeStatus.NORMAL ""] [])
      (fun p hp => rfl) rfl
  · exact C8_registry_deletion_policy.2.2.2.2 (fun _ => false)
      (MultimediaQueue.mk [("a", Meme.mk "a" MemeStatus.NORMAL "")] ["a"] [] [])
      (MultimediaQueue.mk ([] : List (MPath × Meme)) [] [] []) (by decide) rfl
      "a" (Meme.mk "a" MemeStatus.NORMAL "") (by decide) rfl (by decide) rfl

/-! ### Persistence round-trip lemmas (claim C9) -/

theorem MemeStatus.ofValue_name (s : MemeStatus) :
    MemeStatus.ofValue s.name = some s := by
  cases s <;> rfl

theorem lookupInfo_dump_some {p : MPath} {m : Meme} :
    ∀ {l : List (MPath × Meme)}, WfPaths l → lookupMedia p l = some m →
      lookupInfo p (l.map (fun pm => ((Prod.snd pm).path, (Prod.snd pm).status.name))) =
        some m.status.name := by
  intro l
  induction l with
  | nil => intro _ h; simp [lookupMedia] at h
  | cons hd tl ih =>
    intro hw h
    obtain ⟨k, v⟩ := hd
    have hvk : v.path = k := hw (k, v) (List.mem_cons_self _ _)
    have hwtl : WfPaths tl := fun pm hpm => hw pm (List.mem_cons_of_mem _ hpm)
    simp only [lookupMedia] at h
    simp only [List.map_cons, lookupInfo, hvk]
    by_cases hk : k = p
    · rw [if_pos hk] at h
      rw [if_pos hk, Option.some_inj.1 h]
    · rw [if_neg hk] at h
      rw [if_neg hk]
      exact ih hwtl h

theorem lookupInfo_dump_none {p : MPath} :
    ∀ {l : List (MPath × Meme)}, WfPaths l → lookupMedia p l = none →
      lookupInfo p (l.map (fun pm => ((Prod.snd pm).path, (Prod.snd pm).status.name))) =
        none := by
  intro l
  induction l with
  | nil => intro _ _; rfl
  | cons hd tl ih =>
    intro hw h
    obtain ⟨k, v⟩ := hd
    have hvk : v.path = k := hw (k, v) (List.mem_cons_self _ _)
    have hwtl : WfPaths tl := fun pm hpm => hw pm (List.mem_cons_of_mem _ hpm)
    simp only [lookupMedia] at h
    simp only [List.map_cons, lookupInfo, hvk]
    by_cases hk : k = p
    · rw [if_pos hk] at h
      simp at h
    · rw [if_neg hk] at h
      rw [if_neg hk]
      exact ih hwtl h

theorem lookupMedia_append_of_some {p : MPath} {m : Meme} :
    ∀ {l l2 : List (MPath × Meme)}, lookupMedia p l = some m →
      lookupMedia p (l ++ l2) = some m := by
  intro l l2
  induction l with
  | nil => intro h; simp [lookupMedia] at h
  | cons hd tl ih =>
    intro h
    obtain ⟨k, v⟩ := hd
    simp only [lookupMedia] at h
    simp only [List.cons_append, lookupMedia]
    by_cases hk : k = p
    · rw [if_pos hk] at h ⊢; exact h
    · rw [if_neg hk] at h ⊢; exact ih h

theorem lookupMedia_append_of_none {p : MPath} :
    ∀ {l l2 : List (MPath × Meme)}, lookupMedia p l = none →
      lookupMedia p (l ++ l2) = lookupMedia p l2 := by
  intro l l2
  induction l with
  | nil => intro _; rfl
  | cons hd tl ih =>
    intro h
    obtain ⟨k, v⟩ := hd
    simp only [lookupMedia] at h
    simp only [List.cons_append, lookupMedia]
    by_cases hk : k = p
    · rw [if_pos hk] at h; simp at h
    · rw [if_neg hk] at h
      rw [if_neg hk]
      exact ih h

theorem scanAll_restore (qfix : MultimediaQueue) (hwf : WfPaths qfix.media) :
    ∀ (ps : List MPath) (R : MultimediaQueue),
      R.memeInfo = dumpBadMedia qfix →
      (∀ p m, lookupMedia p qfix.media = some m → p ∈ R.media.map Prod.fst →
        lookupMedia p R.media = some (Meme.mk p m.status "")) →
      ∃ R', scanAll true ps R = some R' ∧
        ∀ p m, lookupMedia p qfix.media = some m →
          (p ∈ R.media.map Prod.fst ∨ p ∈ ps) →
          lookupMedia p R'.media = some (Meme.mk p m.status "") := by
  intro ps
  induction ps with
  | nil =>
    intro R hinfo hinv
    refine ⟨R, rfl, fun p m hm hmem => ?_⟩
    rcases hmem with hmem | hmem
    · exact hinv p m hm hmem
    · simp at hmem
  | cons x rest ih =>
    intro R hinfo hinv
    cases hxR : lookupMedia x R.media with
    | some mr =>
      have hs : (lookupMedia x R.media).isSome := by rw [hxR]; rfl
      have hadd : addMedia x true R = some R := by
        rw [addMedia, if_pos hs]
      obtain ⟨R', hscan, hres⟩ := ih R hinfo hinv
      refine ⟨R', ?_, fun p m hm hmem => ?_⟩
      · simp only [scanAll, hadd]
        exact hscan
      · refine hres p m hm ?_
        rcases hmem with hmem | hmem
        · exact Or.inl hmem
        · rcases List.mem_cons.1 hmem with hc | hc
          · exact Or.inl (hc ▸ lookupMedia_mem_keys hxR)
          · exact Or.inr hc
    | none =>
      have hns : ¬ (lookupMedia x R.media).isSome := by rw [hxR]; simp
      have hof : ∃ st, MemeStatus.ofValue ((lookupInfo x R.memeInfo).getD "NORMAL") = some st ∧
          (∀ m, lookupMedia x qfix.media = some m → st = m.status) := by
        cases hqx : lookupMedia x qfix.media with
        | some mx =>
          refine ⟨mx.status, ?_, fun m hm => congrArg Meme.status (Option.some_inj.1 hm)⟩
          rw [hinfo]
          rw [dumpBadMedia]
          rw [lookupInfo_dump_some hwf hqx]
          simp only [Option.getD_some]
          exact MemeStatus.ofValue_name mx.status
        | none =>
          refine ⟨MemeStatus.NORMAL, ?_, fun m hm => absurd hm (by simp)⟩
          rw [hinfo]
          rw [dumpBadMedia]
          rw [lookupInfo_dump_none hwf hqx]
          rfl
      obtain ⟨st, hst, hstq⟩ := hof
      have hadd : addMedia x true R = some { R with
          media := R.media ++ [(x, Meme.mk x st "")],
          mediaQueue := x :: R.mediaQueue } := by
        rw [addMedia, if_neg hns]
        dsimp only
        rw [if_pos rfl, hst]
      have hinfo1 : ({ R with
          media := R.media ++ [(x, Meme.mk x st "")],
          mediaQueue := x :: R.mediaQueue } : MultimediaQueue).memeInfo = dumpBadMedia qfix := hinfo
      have hinv1 : ∀ p m, lookupMedia p qfix.media = some m →
          p ∈ (R.media ++ [(x, Meme.mk x st "")]).map Prod.fst →
          lookupMedia p (R.media ++ [(x, Meme.mk x st "")]) = some (Meme.mk p m.status "") := by
        intro p m hm hmem
        cases hpR : lookupMedia p R.media with
        | some mr =>
          rw [lookupMedia_append_of_some hpR]
          rw [← hinv p m hm (lookupMedia_mem_keys hpR)]
          exact hpR.symm
        | none =>
          have hpx : p = x := by
            simp only [List.map_append, List.mem_append, List.map_cons, List.map_nil,
              List.mem_singleton] at hmem
            rcases hmem with hmem | hmem
            · exact absurd hmem (fun hc => by
                rw [lookupMedia_eq_none_iff] at hpR
                exact hpR hc)
            · exact hmem
          subst hpx
          rw [lookupMedia_append_of_none hpR, hstq m hm]
          simp [lookupMedia]
      obtain ⟨R', hscan, hres⟩ := ih _ hinfo1 hinv1
      refine ⟨R', ?_, fun p m hm hmem => ?_⟩
      · simp only [scanAll, hadd]
        exact hscan
      · refine hres p m hm ?_
        rcases hmem with hmem | hmem
        · exact Or.inl (by
            simp only [List.map_append, List.mem_append]
            exact Or.inl hmem)
        · rcases List.mem_cons.1 hmem with hc | hc
          · exact Or.inl (by
              simp only [List.map_append, List.mem_append, List.map_cons, List.map_nil,
                List.mem_singleton]
              exact Or.inr hc)
          · exact Or.inr hc

/-! ### Claim C9 -/

/-- C9: persistence round-trip — dumping the statuses, constructing a fresh
queue over the dumped store, and re-enqueueing the same paths with the
initial-scan flag reproduces each previously-known path's last-seen status
exactly (for all four status values). -/
theorem C9_persist_roundtrip (q : MultimediaQueue) (hwf : WfPaths q.media) :
    ∃ q', scanAll true (q.media.map Prod.fst) (initQueue (dumpBadMedia q)) = some q' ∧
      ∀ p m, lookupMedia p q.media = some m →
        lookupMedia p q'.media = some (Meme.mk p m.status "") := by
  obtain ⟨q', hscan, hres⟩ := scanAll_restore q hwf (q.media.map Prod.fst)
    (initQueue (dumpBadMedia q)) rfl
    (fun p m _ hmem => by simp [initQueue] at hmem)
  exact ⟨q', hscan, fun p m hm =>
    hres p m hm (Or.inr (lookupMedia_mem_keys hm))⟩

/-- Witness for C9: a registry holding one item of each of the four
statuses. -/
theorem C9_persist_roundtrip_witness :
    ∃ q', scanAll true
        ((MultimediaQueue.mk
          [("a", Meme.mk "a" MemeStatus.NEW ""), ("b", Meme.mk "b" MemeStatus.NORMAL ""),
           ("c", Meme.mk "c" MemeStatus.PENDING ""), ("d", Meme.mk "d" MemeStatus.RETRACTED "")]
          ["a", "b", "c", "d"] [] []).media.map Prod.fst)
        (initQueue (dumpBadMedia (MultimediaQueue.mk
          [("a", Meme.mk "a" MemeStatus.NEW ""), ("b", Meme.mk "b" MemeStatus.NORMAL ""),
           ("c", Meme.mk "c" MemeStatus.PENDING ""), ("d", Meme.mk "d" MemeStatus.RETRACTED "")]
          ["a", "b", "c", "d"] [] []))) = some q' ∧
      ∀ p m, lookupMedia p (MultimediaQueue.mk
          [("a", Meme.mk "a" MemeStatus.NEW ""), ("b", Meme.mk "b" MemeStatus.NORMAL ""),
           ("c", Meme.mk "c" MemeStatus.PENDING ""), ("d", Meme.mk "d" MemeStatus.RETRACTED "")]
          ["a", "b", "c", "d"] [] []).media = some m →
        lookupMedia p q'.media = some (Meme.mk p m.status "") :=
  C9_persist_roundtrip (MultimediaQueue.mk
    [("a", Meme.mk "a" MemeStatus.NEW ""), ("b", Meme.mk "b" MemeStatus.NORMAL ""),
     ("c", Meme.mk "c" MemeStatus.PENDING ""), ("d", Meme.mk "d" MemeStatus.RETRACTED "")]
    ["a", "b", "c", "d"] [] []) (by decide)

/-! ### Claim C1 -/

/-- C1: with no commercial directory configured (`commDir = none`, hence no
commercial queue), `watch_memes` does NOT proceed normally: the unconditional
`self._commercial_directory.iterdir()` (lines 164 and 169) is an attribute
access on `None` and raises, both in the pre-loop scan and on every tick,
whatever the rest of the state is. -/
theorem C1_no_commercial_dir_crashes (memeDir : List MPath) (w : MemeWatcher)
    (fs : MPath → Bool) (s : LoopState) :
    watchInit memeDir none w = none ∧ tick memeDir none fs s = none := by
  constructor
  · rw [watchInit]
    cases h1 : scanAll true memeDir w.memeQueue with
    | none => rfl
    | some mq => rfl
  · rw [tick]
    cases h1 : scanAll false memeDir s.watcher.memeQueue with
    | none => rfl
    | some mq => rfl

/-! ### Scenario fixtures for claims C2 and C3 -/

/-- Concrete test item (a meme already shown once). -/
def memeM1 : Meme := Meme.mk "m1" MemeStatus.NORMAL ""

/-- Concrete test item (a meme already shown once). -/
def memeM2 : Meme := Meme.mk "m2" MemeStatus.NORMAL ""

/-- Concrete test item (a commercial clip). -/
def memeC1 : Meme := Meme.mk "c1" MemeStatus.NORMAL ""

/-- The meme queue of the C2 scenario, up to its (irrelevant) history and
save-file fields: two eligible items rotating. -/
def C2MemeGood (q : MultimediaQueue) : Prop :=
  q.media = [("m1", memeM1), ("m2", memeM2)] ∧
  (q.mediaQueue = ["m1", "m2"] ∨ q.mediaQueue = ["m2", "m1"])

/-- The commercial queue of the C2 scenario, up to its history and save-file
fields: one eligible clip. -/
def C2CommGood (q : MultimediaQueue) : Prop :=
  q.media = [("c1", memeC1)] ∧ q.mediaQueue = ["c1"]

/-- Loop invariant of the C2 scenario after `n` ticks: flag still clear,
period 3, counter at `n + 1`, both queues rotating in place. -/
def C2Inv (n : Nat) (s : LoopState) : Prop :=
  s.watcher.ensureCommercial = false ∧
  s.watcher.commercialRate = 3 ∧
  s.memeCnt = n + 1 ∧
  C2MemeGood s.watcher.memeQueue ∧
  ∃ cq, s.watcher.commercialQueue = some cq ∧ C2CommGood cq

/-- The initial state of the C2 scenario (counter starts at 1, as in
`watch_memes`). -/
def c2State0 : LoopState :=
  ⟨⟨MultimediaQueue.mk [("m1", memeM1), ("m2", memeM2)] ["m1", "m2"] [] [],
    some (MultimediaQueue.mk [("c1", memeC1)] ["c1"] [] []),
    false, 3⟩, 1⟩

/-- What the scenario tick with counter value `c` displays: on multiples of
the period a commercial AND then a meme, otherwise exactly one meme. -/
def C2TickPattern (c : Nat) (evs : List DisplayEvent) : Prop :=
  if c % 3 = 0 then
    ∃ cm mm, evs = [DisplayEvent.displayCommercial cm, DisplayEvent.displayMeme mm]
  else
    ∃ mm, evs = [DisplayEvent.displayMeme mm]

theorem nextMedia_m1_eval (d : List Meme) (i : List (String × String)) :
    nextMedia (fun _ => true)
        (MultimediaQueue.mk [("m1", memeM1), ("m2", memeM2)] ["m1", "m2"] d i) =
      some (some memeM1,
        MultimediaQueue.mk [("m1", memeM1), ("m2", memeM2)] ["m2", "m1"] (d ++ [memeM1]) i) := by
  rfl

theorem nextMedia_m2_eval (d : List Meme) (i : List (String × String)) :
    nextMedia (fun _ => true)
        (MultimediaQueue.mk [("m1", memeM1), ("m2", memeM2)] ["m2", "m1"] d i) =
      some (some memeM2,
        MultimediaQueue.mk [("m1", memeM1), ("m2", memeM2)] ["m1", "m2"] (d ++ [memeM2]) i) := by
  rfl

theorem nextMedia_c1_eval (d : List Meme) (i : List (String × String)) :
    nextMedia (fun _ => true)
        (MultimediaQueue.mk [("c1", memeC1)] ["c1"] d i) =
      some (some memeC1,
        MultimediaQueue.mk [("c1", memeC1)] ["c1"] (d ++ [memeC1]) i) := by
  rfl

/-- C2 counterexample: in the spec's own scenario (period 3, flag never set)
tick 3 produces TWO display calls — the periodic commercial and then a meme
— because the periodic branch is a separate `if`, not part of the
`if/else` on the flag.  So tick 3 does not display "a commercial (and no
meme)", and not every tick makes exactly one display decision. -/
theorem C2_single_decision_cex :
    (runTicks [] (some []) (fun _ => true) 3 c2State0).map Prod.fst =
      some [[DisplayEvent.displayMeme memeM1], [DisplayEvent.displayMeme memeM2],
        [DisplayEvent.displayCommercial (some memeC1), DisplayEvent.displayMeme memeM1]] := by
  rfl

/-- C3 counterexample: when the on-demand flag is set on a tick where the
periodic trigger also fires (counter 3, period 3), the tick displays TWO
commercials — the periodic branch runs first and the on-demand branch runs
afterwards — not a single one. -/
theorem C3_double_commercial_cex :
    (tick [] (some []) (fun _ => true)
        ⟨⟨MultimediaQueue.mk [("m1", memeM1), ("m2", memeM2)] ["m1", "m2"] [] [],
          some (MultimediaQueue.mk [("c1", memeC1)] ["c1"] [] []),
          true, 3⟩, 3⟩).map Prod.fst =
      some [DisplayEvent.displayCommercial (some memeC1),
        DisplayEvent.displayCommercial (some memeC1)] := by
  rfl

theorem tick_eval_flagfalse (mq cq : MultimediaQueue) (rate cnt : Nat)
    (rm : Meme) (mq' : MultimediaQueue) (rc : Option Meme) (cq' : MultimediaQueue)
    (hm : nextMedia (fun _ => true) mq = some (some rm, mq'))
    (hc : nextMedia (fun _ => true) cq = some (rc, cq')) :
    tick [] (some []) (fun _ => true) ⟨⟨mq, some cq, false, rate⟩, cnt⟩ =
      some ((if cnt % rate = 0 then [DisplayEvent.displayCommercial rc] else []) ++
          [DisplayEvent.displayMeme rm],
        ⟨⟨mq', some (if cnt % rate = 0 then cq' else cq), false, rate⟩, cnt + 1⟩) := by
  simp only [tick]
  dsimp only [scanAll]
  by_cases hmod : cnt % rate = 0
  · have hb : (cnt % rate == 0) = true := by simp [hmod]
    simp [hb, hc, hm, hmod]
  · have hb : (cnt % rate == 0) = false := by simp [hmod]
    simp [hb, hc, hm, hmod]

theorem C2_tick_step {n : Nat} {s : LoopState} (h : C2Inv n s) :
    ∃ evs s', tick [] (some []) (fun _ => true) s = some (evs, s') ∧
      C2Inv (n + 1) s' ∧ C2TickPattern (n + 1) evs := by
  obtain ⟨hens, hrate, hcnt, hmg, cq, hcq, hcg⟩ := h
  obtain ⟨w, cnt⟩ := s
  obtain ⟨mq, cqOpt, ens, rate⟩ := w
  dsimp only at hens hrate hcnt hmg hcq
  subst hens
  subst hrate
  subst hcnt
  subst hcq
  obtain ⟨cm, ccq, cd, ci⟩ := cq
  obtain ⟨hcm, hccq⟩ := hcg
  dsimp only at hcm hccq
  subst hcm
  subst hccq
  obtain ⟨mm, mmq, md, mi⟩ := mq
  obtain ⟨hmm, hmmq⟩ := hmg
  dsimp only at hmm hmmq
  subst hmm
  rcases hmmq with hq | hq
  · subst hq
    refine ⟨_, _,
      tick_eval_flagfalse _ _ 3 (n + 1) memeM1 _ (some memeC1) _
        (nextMedia_m1_eval md mi) (nextMedia_c1_eval cd ci), ?_, ?_⟩
    · refine ⟨rfl, rfl, rfl, ⟨rfl, Or.inr rfl⟩, ?_⟩
      by_cases hmod : (n + 1) % 3 = 0
      · rw [if_pos hmod]
        exact ⟨_, rfl, ⟨rfl, rfl⟩⟩
      · rw [if_neg hmod]
        exact ⟨_, rfl, ⟨rfl, rfl⟩⟩
    · rw [C2TickPattern]
      by_cases hmod : (n + 1) % 3 = 0
      · rw [if_pos hmod, if_pos hmod]
        exact ⟨some memeC1, memeM1, rfl⟩
      · rw [if_neg hmod, if_neg hmod]
        exact ⟨memeM1, rfl⟩
  · subst hq
    refine ⟨_, _,
      tick_eval_flagfalse _ _ 3 (n + 1) memeM2 _ (some memeC1) _
        (nextMedia_m2_eval md mi) (nextMedia_c1_eval cd ci), ?_, ?_⟩
    · refine ⟨rfl, rfl, rfl, ⟨rfl, Or.inl rfl⟩, ?_⟩
      by_cases hmod : (n + 1) % 3 = 0
      · rw [if_pos hmod]
        exact ⟨_, rfl, ⟨rfl, rfl⟩⟩
      · rw [if_neg hmod]
        exact ⟨_, rfl, ⟨rfl, rfl⟩⟩
    · rw [C2TickPattern]
      by_cases hmod : (n + 1) % 3 = 0
      · rw [if_pos hmod, if_pos hmod]
        exact ⟨some memeC1, memeM2, rfl⟩
      · rw [if_neg hmod, if_neg hmod]
        exact ⟨memeM2, rfl⟩

theorem C2_run_pattern :
    ∀ (n k : Nat) (s : LoopState), C2Inv k s →
      ∃ out, runTicks [] (some []) (fun _ => true) n s = some out ∧
        out.1.length = n ∧
        ∀ i, i < n → C2TickPattern (k + i + 1) (out.1.getD i []) := by
  intro n
  induction n with
  | zero =>
    intro k s h
    exact ⟨([], s), rfl, rfl, fun i hi => absurd hi (by simp)⟩
  | succ n ih =>
    intro k s h
    obtain ⟨evs, s', htick, hinv', hpat⟩ := C2_tick_step h
    obtain ⟨out, hrun, hlen, hall⟩ := ih (k + 1) s' hinv'
    obtain ⟨outl, outs⟩ := out
    dsimp only at hrun hlen hall
    refine ⟨(evs :: outl, outs), ?_, by simp [hlen], ?_⟩
    · rw [runTicks, htick]
      dsimp only
      rw [hrun]
    · intro i hi
      cases i with
      | zero => exact hpat
      | succ i =>
        have hi' : i < n := by omega
        have hidx : k + (i + 1) + 1 = (k + 1) + i + 1 := by omega
        rw [hidx]
        exact hall i hi'

/-- C2 (amended): in the spec's scenario (period 3, flag never set, counter
starting at 1) every tick succeeds and displays the next meme; a tick whose
counter is divisible by 3 (ticks 3, 6, 9, ...) FIRST displays a commercial
and then still displays a meme.  The commercial cadence has period 3 as
claimed, but the periodic tick makes two display calls, not one, and the
pattern of meme displays is unbroken. -/
theorem C2_periodic_pattern_amended (n : Nat) :
    ∃ out, runTicks [] (some []) (fun _ => true) n c2State0 = some out ∧
      out.1.length = n ∧
      ∀ i, i < n → C2TickPattern (i + 1) (out.1.getD i []) := by
  obtain ⟨out, hrun, hlen, hall⟩ := C2_run_pattern n 0 c2State0
    ⟨rfl, rfl, rfl, ⟨rfl, Or.inl rfl⟩, _, rfl, ⟨rfl, rfl⟩⟩
  refine ⟨out, hrun, hlen, fun i hi => ?_⟩
  have h := hall i hi
  have hidx : 0 + i + 1 = i + 1 := by omega
  rw [hidx] at h
  exact h

/-- C3 (amended): on any successful tick that starts with the on-demand
flag set, the scheduler clears the flag, resets the counter (it reads 1
after the tick's trailing increment), and displays no meme; it plays the
on-demand commercial, PRECEDED by the periodic commercial when the counter
also hits the period boundary — so such a tick shows two commercials, not
one.  When the periodic trigger does not coincide, exactly one commercial
is displayed. -/
theorem C3_on_demand_tick (memeDir : List MPath) (commDir : Option (List MPath))
    (fs : MPath → Bool) (s : LoopState) (evs : List DisplayEvent) (s' : LoopState)
    (hflag : s.watcher.ensureCommercial = true)
    (h : tick memeDir commDir fs s = some (evs, s')) :
    s'.watcher.ensureCommercial = false ∧
    s'.memeCnt = 1 ∧
    (∀ m, DisplayEvent.displayMeme m ∉ evs) ∧
    (if s.memeCnt % s.watcher.commercialRate = 0 then
      ∃ a b, evs = [DisplayEvent.displayCommercial a, DisplayEvent.displayCommercial b]
     else ∃ b, evs = [DisplayEvent.displayCommercial b]) := by
  simp only [tick] at h
  cases h1 : scanAll false memeDir s.watcher.memeQueue with
  | none => rw [h1] at h; exact absurd h (by simp)
  | some mq =>
    rw [h1] at h
    dsimp only at h
    cases commDir with
    | none => exact absurd h (by simp)
    | some cdl =>
      dsimp only at h
      cases h2 : s.watcher.commercialQueue with
      | none => rw [h2] at h; exact absurd h (by simp)
      | some cq0 =>
        rw [h2] at h
        dsimp only at h
        cases h3 : scanAll false cdl cq0 with
        | none => rw [h3] at h; exact absurd h (by simp)
        | some cq =>
          rw [h3] at h
          dsimp only [Option.isSome_some, Bool.true_and] at h
          by_cases hmod : s.memeCnt % s.watcher.commercialRate = 0
          · have hb : (s.memeCnt % s.watcher.commercialRate == 0) = true := by simp [hmod]
            rw [hb] at h
            simp only [Bool.true_and, eq_self_iff_true, if_true] at h
            cases h4 : nextMedia fs cq with
            | none => rw [h4] at h; exact absurd h (by simp)
            | some rc1 =>
              obtain ⟨r1, cq1⟩ := rc1
              rw [h4] at h
              simp only [Option.map_some'] at h
              rw [hflag] at h
              simp only [eq_self_iff_true, if_true] at h
              cases h5 : nextMedia fs cq1 with
              | none => rw [h5] at h; exact absurd h (by simp)
              | some rc2 =>
                obtain ⟨r2, cq2⟩ := rc2
                rw [h5] at h
                dsimp only at h
                simp only [Option.some_inj, Prod.mk.injEq] at h
                obtain ⟨hevs, hs'⟩ := h
                subst hs'
                refine ⟨rfl, rfl, ?_, ?_⟩
                · intro m
                  rw [← hevs]
                  simp
                · rw [if_pos hmod, ← hevs]
                  exact ⟨r1, r2, rfl⟩
          · have hb : (s.memeCnt % s.watcher.commercialRate == 0) = false := by simp [hmod]
            rw [hb] at h
            simp only [Bool.true_and, Bool.false_eq_true, if_false] at h
            rw [hflag] at h
            simp only [eq_self_iff_true, if_true] at h
            cases h5 : nextMedia fs cq with
            | none => rw [h5] at h; exact absurd h (by simp)
            | some rc2 =>
              obtain ⟨r2, cq2⟩ := rc2
              rw [h5] at h
              dsimp only at h
              simp only [Option.some_inj, Prod.mk.injEq] at h
              obtain ⟨hevs, hs'⟩ := h
              subst hs'
              refine ⟨rfl, rfl, ?_, ?_⟩
              · intro m
                rw [← hevs]
                simp
              · rw [if_neg hmod, ← hevs]
                exact ⟨r2, by simp⟩

/-- Witness for C3: the amended theorem applied on a tick where the flag is
set and the periodic trigger also fires (counter 3, period 3). -/
theorem C3_on_demand_tick_witness :
    ((⟨⟨MultimediaQueue.mk [("m1", memeM1), ("m2", memeM2)] ["m1", "m2"] [] [],
        some (MultimediaQueue.mk [("c1", memeC1)] ["c1"] [memeC1, memeC1] []),
        false, 3⟩, 1⟩ : LoopState).watcher.ensureCommercial = false ∧
    (⟨⟨MultimediaQueue.mk [("m1", memeM1), ("m2", memeM2)] ["m1", "m2"] [] [],
        some (MultimediaQueue.mk [("c1", memeC1)] ["c1"] [memeC1, memeC1] []),
        false, 3⟩, 1⟩ : LoopState).memeCnt = 1 ∧
    (∀ m, DisplayEvent.displayMeme m ∉
      [DisplayEvent.displayCommercial (some memeC1), DisplayEvent.displayCommercial (some memeC1)]) ∧
    if (⟨⟨MultimediaQueue.mk [("m1", memeM1), ("m2", memeM2)] ["m1", "m2"] [] [],
        some (MultimediaQueue.mk [("c1", memeC1)] ["c1"] [] []),
        true, 3⟩, 3⟩ : LoopState).memeCnt %
        (⟨⟨MultimediaQueue.mk [("m1", memeM1), ("m2", memeM2)] ["m1", "m2"] [] [],
          some (MultimediaQueue.mk [("c1", memeC1)] ["c1"] [] []),
          true, 3⟩, 3⟩ : LoopState).watcher.commercialRate = 0 then
      ∃ a b, [DisplayEvent.displayCommercial (some memeC1),
          DisplayEvent.displayCommercial (some memeC1)] =
        [DisplayEvent.displayCommercial a, DisplayEvent.displayCommercial b]
    else
      ∃ b, [DisplayEvent.displayCommercial (some memeC1),
          DisplayEvent.displayCommercial (some memeC1)] =
        [DisplayEvent.displayCommercial b]) :=
  C3_on_demand_tick [] (some []) (fun _ => true)
    ⟨⟨MultimediaQueue.mk [("m1", memeM1), ("m2", memeM2)] ["m1", "m2"] [] [],
      some (MultimediaQueue.mk [("c1", memeC1)] ["c1"] [] []),
      true, 3⟩, 3⟩
    [DisplayEvent.displayCommercial (some memeC1), DisplayEvent.displayCommercial (some memeC1)]
    ⟨⟨MultimediaQueue.mk [("m1", memeM1), ("m2", memeM2)] ["m1", "m2"] [] [],
      some (MultimediaQueue.mk [("c1", memeC1)] ["c1"] [memeC1, memeC1] []),
      false, 3⟩, 1⟩
    rfl rfl
